import Mathlib

set_option maxRecDepth 40000

/-!
Shallow embedding of the campus work-order distribution pipeline
(`src/campus_work_distribution.py`): identifier normalization, the manual
override table, difflib fuzzy matching, reconciliation diagnostics, the
craft aggregation table, and the per-building proportion summary.

Modelling conventions: pandas string cells are Lean `String`s; Python
`str.upper` and `str.strip` are modelled characterwise on ASCII (`upChar`,
`isWS`); difflib similarity scores (Python floats `2*M/(la+lb)`) are
modelled as exact rationals built with `mkRat`; a pandas frame of work
orders is a `List WorkOrder`.  difflib's autojunk heuristic only affects
second sequences of length at least 200 and is not modelled.
-/

/-- ASCII model of Python `str.upper`, applied characterwise: lower-case
ASCII letters are shifted to upper case, all other characters unchanged. -/
def upChar (c : Char) : Char :=
  if 97 ≤ c.toNat ∧ c.toNat ≤ 122 then Char.ofNat (c.toNat - 32) else c

/-- ASCII whitespace stripped by Python `str.strip`. -/
def isWS (c : Char) : Bool :=
  decide (c.toNat = 32 ∨ c.toNat = 9 ∨ c.toNat = 10 ∨ c.toNat = 13 ∨
    c.toNat = 11 ∨ c.toNat = 12)

/-- Drop trailing whitespace characters (the right half of `str.strip`). -/
def dropTrail (l : List Char) : List Char := (l.reverse.dropWhile isWS).reverse

/-- Python `str.strip`: drop leading and trailing whitespace. -/
def trimWS (l : List Char) : List Char := dropTrail (l.dropWhile isWS)

/-- The identifier normalizer: `str.upper()` then `str.strip()`, as applied
to `FAC_ID` (column `FAC_ID_UP`) and to the registry common names. -/
def normalizeId (s : String) : String := ⟨trimWS (s.data.map upChar)⟩

/-- Length of the longest common prefix of two character lists. -/
def commonPrefixLen : List Char → List Char → Nat
  | a :: as, b :: bs => if a = b then commonPrefixLen as bs + 1 else 0
  | _, _ => 0

/-- difflib `SequenceMatcher.find_longest_match` over whole sequences with
no junk: the longest common contiguous block `(i, j, k)`, ties resolved to
the smallest start in `a`, then the smallest start in `b` — exactly the
block difflib's dynamic program reports.  `(0, 0, 0)` when there is no
common character. -/
def bestBlock (a b : List Char) : Nat × Nat × Nat :=
  (List.range a.length).foldl (fun acc i =>
    (List.range b.length).foldl (fun acc2 j =>
      let k := commonPrefixLen (a.drop i) (b.drop j)
      if acc2.2.2 < k then (i, j, k) else acc2) acc) (0, 0, 0)

/-- Total matched size of difflib `get_matching_blocks`: the longest common
block plus, recursively, the matches strictly before and strictly after it.
`fuel` bounds the recursion depth; `a.length + b.length` always suffices
because each recursive call strictly shrinks that sum (the found block has
positive size and is removed from both sides). -/
def matchingFuel : Nat → List Char → List Char → Nat
  | 0, _, _ => 0
  | fuel + 1, a, b =>
    let t := bestBlock a b
    if t.2.2 = 0 then 0
    else
      t.2.2 + matchingFuel fuel (a.take t.1) (b.take t.2.1)
            + matchingFuel fuel (a.drop (t.1 + t.2.2)) (b.drop (t.2.1 + t.2.2))

/-- Sum of the sizes of difflib's matching blocks of `a` and `b`. -/
def matchingTotal (a b : List Char) : Nat := matchingFuel (a.length + b.length) a b

/-- difflib `SequenceMatcher.ratio`: `2*M/(len(a)+len(b))`, and `1.0` when
both sequences are empty, as an exact rational. -/
def ratioQ (a b : List Char) : ℚ :=
  if a.length + b.length = 0 then 1
  else mkRat (2 * (matchingTotal a b : Int)) (a.length + b.length)

/-- Insert `x` before the first element `y` of `l` with `le x y`. -/
def insertBy {α : Type} (le : α → α → Bool) (x : α) : List α → List α
  | [] => [x]
  | y :: ys => if le x y then x :: y :: ys else y :: insertBy le x ys

/-- Insertion sort by the boolean comparison `le`. -/
def sortBy {α : Type} (le : α → α → Bool) : List α → List α
  | [] => []
  | x :: xs => insertBy le x (sortBy le xs)

/-- Descending order on difflib `(score, candidate)` pairs: `heapq.nlargest`
returns `(ratio, candidate)` tuples in decreasing tuple order, so equal
scores are tied by decreasing candidate order. -/
def pairGeB (p q : ℚ × String) : Bool :=
  decide (q.1 < p.1) || (decide (p.1 = q.1) && decide (q.2.data ≤ p.2.data))

/-- difflib `get_close_matches(word, possibilities, n, cutoff)`: keep the
candidates whose ratio against `word` reaches `cutoff` (difflib's three
ratio tests are together equivalent to this one, the quick ratios being
upper bounds of `ratio`), order them by decreasing `(score, candidate)`,
and return the first `n` candidate strings. -/
def getCloseMatches (word : String) (possibilities : List String) (n : Nat) (cutoff : ℚ) :
    List String :=
  ((sortBy pairGeB (possibilities.filterMap (fun x =>
    if cutoff ≤ ratioQ x.data word.data then some (ratioQ x.data word.data, x)
    else none))).take n).map Prod.snd

/-- One work-order row: the raw `FAC_ID`, the `CRAFT` label, and the
`year`/`month` fields derived from `WORKDATE`. -/
structure WorkOrder where
  fac_id : String
  craft : String
  year : Nat
  month : Nat
deriving DecidableEq

/-- `MANUAL_OVERRIDES`: upper-cased and stripped keys mapped to exact
registry names. -/
def MANUAL_OVERRIDES : List (String × String) :=
  [("COC", "COLLEGE OF COMPUTING"), ("COLL OF COMPUTI", "COLLEGE OF COMPUTING")]

/-- Exact lookup of a normalized identifier in the override table. -/
def overrideLookup (s : String) : Option String :=
  (MANUAL_OVERRIDES.find? (fun p => p.1 == s)).map Prod.snd

/-- `FAC_ID_MAPPED`: normalize the raw identifier, then apply
`Series.replace(MANUAL_OVERRIDES)`, which substitutes values exactly equal
to an override key and leaves every other value unchanged. -/
def facIdMapped (raw : String) : String :=
  match overrideLookup (normalizeId raw) with
  | some c => c
  | none => normalizeId raw

/-- `load_buildings`: upper-case and strip every registry common name; the
function performs no duplicate detection. -/
def loadBuildings (registry : List String) : List String := registry.map normalizeId

/-- The date filter of `load_and_filter_orders`: keep orders whose year is
inside the selected range and, when the optional filters are active, whose
month is inside the month range or the season month set. -/
def filterOrders (years : Nat × Nat) (months : Option (Nat × Nat))
    (season : Option (List Nat)) (df : List WorkOrder) : List WorkOrder :=
  df.filter (fun o =>
    decide (years.1 ≤ o.year ∧ o.year ≤ years.2) &&
    (match months with
     | none => true
     | some m => decide (m.1 ≤ o.month ∧ o.month ≤ m.2)) &&
    (match season with
     | none => true
     | some ms => decide (o.month ∈ ms)))

/-- `pandas.unique`: the distinct values of a column in order of first
appearance (`seen` accumulates the values already emitted). -/
def uniqueFirstAux : List String → List String → List String
  | [], _ => []
  | x :: xs, seen =>
    if x ∈ seen then uniqueFirstAux xs seen else x :: uniqueFirstAux xs (x :: seen)

/-- Distinct values of a list in order of first appearance. -/
def uniqueFirst (l : List String) : List String := uniqueFirstAux l []

/-- `unmatched`: the distinct mapped identifiers of the filtered orders that
do not exactly equal any registry name. -/
def unmatchedIds (orders : List WorkOrder) (buildingNames : List String) : List String :=
  (uniqueFirst (orders.map (fun o => facIdMapped o.fac_id))).filter
    (fun fid => decide (fid ∉ buildingNames))

/-- `suggestions`: every unmatched identifier paired with
`get_close_matches(fid, building_names, n=3, cutoff=0.6)`. -/
def suggestionsReport (orders : List WorkOrder) (buildingNames : List String) :
    List (String × List String) :=
  (unmatchedIds orders buildingNames).map
    (fun fid => (fid, getCloseMatches fid buildingNames 3 (mkRat 3 5)))

/-- Lexicographic comparison of strings through their character lists, the
order Python uses on `str` and pandas uses to sort labels. -/
def strLeB (s t : String) : Bool := decide (s.data ≤ t.data)

/-- Row labels of `grouped`: the distinct mapped identifiers of the filtered
orders, sorted (`groupby` defaults to `sort=True`). -/
def groupedKeys (orders : List WorkOrder) : List String :=
  sortBy strLeB (uniqueFirst (orders.map (fun o => facIdMapped o.fac_id)))

/-- Column labels of `grouped`: the distinct `CRAFT` values, sorted
(`value_counts` factorizes the craft values with `sort=True` and `unstack`
uses that sorted level as the column index). -/
def groupedCols (orders : List WorkOrder) : List String :=
  sortBy strLeB (uniqueFirst (orders.map (fun o => o.craft)))

/-- One cell of `grouped`: how many filtered orders have mapped identifier
`b` and craft `c` (`unstack(fill_value=0)` fills absent combinations with
zero). -/
def cellCount (orders : List WorkOrder) (b c : String) : Nat :=
  orders.countP (fun o => decide (facIdMapped o.fac_id = b) && decide (o.craft = c))

/-- The whole `grouped` frame: every sorted row label with the sorted column
labels and their counts. -/
def groupedTable (orders : List WorkOrder) : List (String × List (String × Nat)) :=
  (groupedKeys orders).map (fun b =>
    (b, (groupedCols orders).map (fun c => (c, cellCount orders b c))))

/-- `grouped.loc[name]`: the row of one building over all craft columns. -/
def buildingRow (orders : List WorkOrder) (b : String) : List (String × Nat) :=
  (groupedCols orders).map (fun c => (c, cellCount orders b c))

/-- `raw[raw>0]`: drop the zero-count crafts of a building's row. -/
def positiveCounts (row : List (String × Nat)) : List (String × Nat) :=
  row.filter (fun p => decide (0 < p.2))

/-- `counts.sum()`. -/
def rowTotal (row : List (String × Nat)) : Nat := (row.map Prod.snd).sum

/-- `counts.div(counts.sum())*100`: the per-craft proportions of the tooltip
legend, floats modelled as exact rationals. -/
def proportions (row : List (String × Nat)) : List (String × ℚ) :=
  (positiveCounts row).map (fun p =>
    (p.1, (p.2 : ℚ) / (rowTotal (positiveCounts row) : ℚ) * 100))

/-- The craft labels of the tooltip legend, in the order the legend lists
them (`zip(counts.index, pct)` over the positive cells of the row). -/
def legendCrafts (orders : List WorkOrder) (b : String) : List String :=
  (positiveCounts (buildingRow orders b)).map Prod.fst

/-- Sum of every cell of the aggregated table. -/
def tableTotal (t : List (String × List (String × Nat))) : Nat :=
  (t.map (fun r => (r.2.map Prod.snd).sum)).sum

/-- Modelled from the spec's words, for comparison with `legendCrafts`
(which follows the source): the category order the spec asserts for the
legend — each craft of the building in order of first appearance among the
building's filtered orders ("insertion order of the input mapping"). -/
def specFirstAppearanceOrder (orders : List WorkOrder) (b : String) : List String :=
  uniqueFirst ((orders.filter (fun o => decide (facIdMapped o.fac_id = b))).map
    (fun o => o.craft))

/-! Basic facts about `uniqueFirst`. -/

theorem mem_uniqueFirstAux (l : List String) :
    ∀ (seen : List String) (a : String), a ∈ uniqueFirstAux l seen ↔ a ∈ l ∧ a ∉ seen := by
  induction l with
  | nil => intro seen a; simp [uniqueFirstAux]
  | cons x xs ih =>
    intro seen a
    unfold uniqueFirstAux
    by_cases hx : x ∈ seen
    · rw [if_pos hx, ih]
      constructor
      · rintro ⟨h1, h2⟩; exact ⟨List.mem_cons_of_mem x h1, h2⟩
      · rintro ⟨h1, h2⟩
        rcases List.mem_cons.mp h1 with h | h
        · subst h; exact absurd hx h2
        · exact ⟨h, h2⟩
    · rw [if_neg hx]
      constructor
      · intro h
        rcases List.mem_cons.mp h with h | h
        · subst h; exact ⟨List.mem_cons_self _ _, hx⟩
        · rcases (ih _ a).mp h with ⟨h1, h2⟩
          refine ⟨List.mem_cons_of_mem x h1, fun hs => h2 (List.mem_cons_of_mem x hs)⟩
      · rintro ⟨h1, h2⟩
        rcases List.mem_cons.mp h1 with h | h
        · subst h; exact List.mem_cons_self _ _
        · by_cases hax : a = x
          · subst hax; exact List.mem_cons_self _ _
          · refine List.mem_cons_of_mem x ((ih _ a).mpr ⟨h, fun hs => ?_⟩)
            rcases List.mem_cons.mp hs with h3 | h3
            · exact hax h3
            · exact h2 h3

theorem nodup_uniqueFirstAux (l : List String) :
    ∀ seen : List String, (uniqueFirstAux l seen).Nodup := by
  induction l with
  | nil => intro seen; simp [uniqueFirstAux]
  | cons x xs ih =>
    intro seen
    unfold uniqueFirstAux
    by_cases hx : x ∈ seen
    · rw [if_pos hx]; exact ih seen
    · rw [if_neg hx]
      refine List.nodup_cons.mpr ⟨fun hmem => ?_, ih _⟩
      rcases (mem_uniqueFirstAux xs _ x).mp hmem with ⟨_, h2⟩
      exact h2 (List.mem_cons_self _ _)

theorem mem_uniqueFirst (l : List String) (a : String) : a ∈ uniqueFirst l ↔ a ∈ l := by
  unfold uniqueFirst
  rw [mem_uniqueFirstAux]
  simp

theorem nodup_uniqueFirst (l : List String) : (uniqueFirst l).Nodup :=
  nodup_uniqueFirstAux l []

theorem uniqueFirst_perm_of_perm {l l' : List String} (h : l.Perm l') :
    (uniqueFirst l).Perm (uniqueFirst l') := by
  refine (List.perm_ext_iff_of_nodup (nodup_uniqueFirst l) (nodup_uniqueFirst l')).mpr ?_
  intro a
  rw [mem_uniqueFirst, mem_uniqueFirst]
  exact h.mem_iff

/-! Basic facts about the insertion sort `sortBy`. -/

theorem insertBy_perm {α : Type} (le : α → α → Bool) (x : α) (l : List α) :
    (insertBy le x l).Perm (x :: l) := by
  induction l with
  | nil => exact List.Perm.refl _
  | cons y ys ih =>
    unfold insertBy
    by_cases h : le x y = true
    · rw [if_pos h]
    · rw [if_neg h]
      exact (ih.cons y).trans (List.Perm.swap x y ys)

theorem sortBy_perm {α : Type} (le : α → α → Bool) (l : List α) :
    (sortBy le l).Perm l := by
  induction l with
  | nil => exact List.Perm.refl _
  | cons x xs ih => exact (insertBy_perm le x (sortBy le xs)).trans (ih.cons x)

theorem pairwise_insertBy {α : Type} (le : α → α → Bool)
    (htot : ∀ a b, le a b = true ∨ le b a = true)
    (htrans : ∀ a b c, le a b = true → le b c = true → le a c = true)
    (x : α) (l : List α) (hl : l.Pairwise (fun a b => le a b = true)) :
    (insertBy le x l).Pairwise (fun a b => le a b = true) := by
  induction l with
  | nil => simp [insertBy]
  | cons y ys ih =>
    rw [List.pairwise_cons] at hl
    obtain ⟨hy, hys⟩ := hl
    unfold insertBy
    by_cases h : le x y = true
    · rw [if_pos h]
      refine List.pairwise_cons.mpr ⟨?_, List.pairwise_cons.mpr ⟨hy, hys⟩⟩
      intro b hb
      rcases List.mem_cons.mp hb with hb | hb
      · subst hb; exact h
      · exact htrans x y b h (hy b hb)
    · rw [if_neg h]
      refine List.pairwise_cons.mpr ⟨?_, ih hys⟩
      intro b hb
      rcases (insertBy_perm le x ys).mem_iff.mp hb with hb2
      rcases List.mem_cons.mp hb2 with hb3 | hb3
      · rw [hb3]
        rcases htot x y with h2 | h2
        · exact absurd h2 h
        · exact h2
      · exact hy b hb3

theorem sortBy_pairwise {α : Type} (le : α → α → Bool)
    (htot : ∀ a b, le a b = true ∨ le b a = true)
    (htrans : ∀ a b c, le a b = true → le b c = true → le a c = true)
    (l : List α) : (sortBy le l).Pairwise (fun a b => le a b = true) := by
  induction l with
  | nil => simp [sortBy]
  | cons x xs ih => exact pairwise_insertBy le htot htrans x (sortBy le xs) ih

theorem sortBy_eq_of_perm {α : Type} (le : α → α → Bool)
    (htot : ∀ a b, le a b = true ∨ le b a = true)
    (htrans : ∀ a b c, le a b = true → le b c = true → le a c = true)
    (hanti : ∀ a b, le a b = true → le b a = true → a = b)
    {l l' : List α} (h : l.Perm l') : sortBy le l = sortBy le l' := by
  haveI : IsAntisymm α (fun a b => le a b = true) := ⟨hanti⟩
  exact List.eq_of_perm_of_sorted
    ((sortBy_perm le l).trans (h.trans (sortBy_perm le l').symm))
    (sortBy_pairwise le htot htrans l) (sortBy_pairwise le htot htrans l')

/-! Order facts for the two comparisons used by the pipeline. -/

theorem strLeB_total (s t : String) : strLeB s t = true ∨ strLeB t s = true := by
  unfold strLeB
  rcases le_total s.data t.data with h | h
  · exact Or.inl (decide_eq_true h)
  · exact Or.inr (decide_eq_true h)

theorem strLeB_trans (s t u : String) (h1 : strLeB s t = true) (h2 : strLeB t u = true) :
    strLeB s u = true := by
  unfold strLeB at *
  exact decide_eq_true (le_trans (of_decide_eq_true h1) (of_decide_eq_true h2))

theorem strLeB_antisymm (s t : String) (h1 : strLeB s t = true) (h2 : strLeB t s = true) :
    s = t := by
  unfold strLeB at *
  have hd : s.data = t.data := le_antisymm (of_decide_eq_true h1) (of_decide_eq_true h2)
  cases s with
  | mk sd =>
    cases t with
    | mk td => exact congrArg String.mk hd

theorem pairGeB_total (p q : ℚ × String) : pairGeB p q = true ∨ pairGeB q p = true := by
  unfold pairGeB
  rcases lt_trichotomy p.1 q.1 with h | h | h
  · refine Or.inr ?_
    simp [h]
  · rcases le_total p.2.data q.2.data with h2 | h2
    · refine Or.inr ?_
      simp [h.symm, h2, le_of_eq h.symm]
    · refine Or.inl ?_
      simp [h, h2]
  · refine Or.inl ?_
    simp [h]

theorem pairGeB_trans (p q r : ℚ × String) (h1 : pairGeB p q = true)
    (h2 : pairGeB q r = true) : pairGeB p r = true := by
  unfold pairGeB at *
  simp only [Bool.or_eq_true, Bool.and_eq_true, decide_eq_true_eq] at *
  rcases h1 with h1 | ⟨h1a, h1b⟩
  · rcases h2 with h2 | ⟨h2a, h2b⟩
    · exact Or.inl (lt_trans h2 h1)
    · exact Or.inl (h2a ▸ h1)
  · rcases h2 with h2 | ⟨h2a, h2b⟩
    · exact Or.inl (h1a ▸ h2)
    · exact Or.inr ⟨h1a.trans h2a, le_trans h2b h1b⟩

/-! Character-level facts about the ASCII uppercase map and whitespace. -/

theorem charOfNat_letter (n : Nat) (h1 : 97 ≤ n) (h2 : n ≤ 122) :
    (Char.ofNat (n - 32)).toNat = n - 32 := by
  interval_cases n <;> decide

theorem upChar_idem (c : Char) : upChar (upChar c) = upChar c := by
  by_cases h : 97 ≤ c.toNat ∧ c.toNat ≤ 122
  · have h1 : upChar c = Char.ofNat (c.toNat - 32) := by unfold upChar; rw [if_pos h]
    rw [h1]
    unfold upChar
    rw [if_neg]
    intro hx
    rw [charOfNat_letter c.toNat h.1 h.2] at hx
    omega
  · have h1 : upChar c = c := by unfold upChar; rw [if_neg h]
    rw [h1, h1]

theorem isWS_upChar (c : Char) : isWS (upChar c) = isWS c := by
  by_cases h : 97 ≤ c.toNat ∧ c.toNat ≤ 122
  · have h1 : upChar c = Char.ofNat (c.toNat - 32) := by unfold upChar; rw [if_pos h]
    rw [h1]
    unfold isWS
    refine decide_eq_decide.mpr ?_
    rw [charOfNat_letter c.toNat h.1 h.2]
    omega
  · have h1 : upChar c = c := by unfold upChar; rw [if_neg h]
    rw [h1]

/-! Facts about stripping whitespace. -/

theorem dropWhile_isWS_idem (l : List Char) :
    (l.dropWhile isWS).dropWhile isWS = l.dropWhile isWS := by
  induction l with
  | nil => rfl
  | cons c cs ih =>
    by_cases h : isWS c = true
    · rw [List.dropWhile_cons_of_pos h]; exact ih
    · rw [List.dropWhile_cons_of_neg h, List.dropWhile_cons_of_neg h]

theorem dropWhile_isWS_head (l : List Char) :
    l.dropWhile isWS = [] ∨ ∃ c r, l.dropWhile isWS = c :: r ∧ isWS c = false := by
  induction l with
  | nil => exact Or.inl rfl
  | cons c cs ih =>
    by_cases h : isWS c = true
    · rw [List.dropWhile_cons_of_pos h]; exact ih
    · rw [List.dropWhile_cons_of_neg h]
      exact Or.inr ⟨c, cs, rfl, Bool.eq_false_iff.mpr h⟩

theorem dropTrail_idem (l : List Char) : dropTrail (dropTrail l) = dropTrail l := by
  unfold dropTrail
  rw [List.reverse_reverse, dropWhile_isWS_idem]

theorem dropWhile_isWS_dropTrail (l : List Char)
    (hl : l = [] ∨ ∃ c r, l = c :: r ∧ isWS c = false) :
    (dropTrail l).dropWhile isWS = dropTrail l := by
  rcases hl with hl | ⟨c, r, hl, hc⟩
  · subst hl; rfl
  · subst hl
    unfold dropTrail
    rw [List.reverse_cons, List.dropWhile_append]
    by_cases he : (r.reverse.dropWhile isWS).isEmpty = true
    · rw [if_pos he]
      simp [hc]
    · rw [if_neg he]
      simp [hc]

theorem trimWS_idem (l : List Char) : trimWS (trimWS l) = trimWS l := by
  unfold trimWS
  rw [dropWhile_isWS_dropTrail (l.dropWhile isWS) (dropWhile_isWS_head l), dropTrail_idem]

/-! Commuting a whitespace-preserving character map past stripping. -/

theorem map_dropWhile_isWS (f : Char → Char) (hf : ∀ c, isWS (f c) = isWS c)
    (l : List Char) : (l.dropWhile isWS).map f = (l.map f).dropWhile isWS := by
  induction l with
  | nil => rfl
  | cons c cs ih =>
    by_cases h : isWS c = true
    · rw [List.dropWhile_cons_of_pos h, List.map_cons,
        List.dropWhile_cons_of_pos (by rw [hf c]; exact h)]
      exact ih
    · rw [List.dropWhile_cons_of_neg h, List.map_cons,
        List.dropWhile_cons_of_neg (by rw [hf c]; exact h)]

theorem map_dropTrail (f : Char → Char) (hf : ∀ c, isWS (f c) = isWS c)
    (l : List Char) : (dropTrail l).map f = dropTrail (l.map f) := by
  unfold dropTrail
  rw [← List.map_reverse, ← map_dropWhile_isWS f hf, ← List.map_reverse]

theorem trimWS_map (f : Char → Char) (hf : ∀ c, isWS (f c) = isWS c)
    (l : List Char) : (trimWS l).map f = trimWS (l.map f) := by
  unfold trimWS
  rw [map_dropTrail f hf, map_dropWhile_isWS f hf]

theorem normalizeId_idem (s : String) : normalizeId (normalizeId s) = normalizeId s := by
  unfold normalizeId
  refine congrArg String.mk ?_
  show trimWS ((trimWS (s.data.map upChar)).map upChar) = trimWS (s.data.map upChar)
  rw [trimWS_map upChar isWS_upChar, List.map_map,
    show upChar ∘ upChar = upChar from funext upChar_idem]
  exact trimWS_idem _

/-! Membership and distinctness of the aggregation labels. -/

theorem nodup_groupedKeys (orders : List WorkOrder) : (groupedKeys orders).Nodup :=
  (sortBy_perm strLeB _).symm.nodup (nodup_uniqueFirst _)

theorem nodup_groupedCols (orders : List WorkOrder) : (groupedCols orders).Nodup :=
  (sortBy_perm strLeB _).symm.nodup (nodup_uniqueFirst _)

theorem mem_groupedKeys (orders : List WorkOrder) (b : String) :
    b ∈ groupedKeys orders ↔ ∃ o ∈ orders, facIdMapped o.fac_id = b := by
  unfold groupedKeys
  rw [(sortBy_perm strLeB _).mem_iff, mem_uniqueFirst, List.mem_map]

theorem mem_groupedCols (orders : List WorkOrder) (c : String) :
    c ∈ groupedCols orders ↔ ∃ o ∈ orders, o.craft = c := by
  unfold groupedCols
  rw [(sortBy_perm strLeB _).mem_iff, mem_uniqueFirst, List.mem_map]

theorem mem_unmatchedIds (orders : List WorkOrder) (names : List String) (fid : String) :
    fid ∈ unmatchedIds orders names ↔
      (∃ o ∈ orders, facIdMapped o.fac_id = fid) ∧ fid ∉ names := by
  unfold unmatchedIds
  rw [List.mem_filter, mem_uniqueFirst, List.mem_map]
  simp only [decide_eq_true_eq]

/-! Counting lemmas: every order lands in exactly one cell of the table. -/

theorem sum_map_add_distrib {α : Type} (l : List α) (f g : α → Nat) :
    (l.map (fun a => f a + g a)).sum = (l.map f).sum + (l.map g).sum := by
  induction l with
  | nil => rfl
  | cons x xs ih =>
    simp only [List.map_cons, List.sum_cons, ih]
    omega

theorem sum_map_ite_of_not_mem {α : Type} [DecidableEq α] (a : α) :
    ∀ keys : List α, a ∉ keys → (keys.map (fun k => if a = k then 1 else 0)).sum = 0 := by
  intro keys
  induction keys with
  | nil => intro _; rfl
  | cons k ks ih =>
    intro ha
    have hak : a ≠ k := fun h => ha (h ▸ List.mem_cons_self k ks)
    have ha2 : a ∉ ks := fun h => ha (List.mem_cons_of_mem k h)
    simp only [List.map_cons, List.sum_cons, if_neg hak, ih ha2]

theorem sum_map_ite_of_mem {α : Type} [DecidableEq α] (a : α) :
    ∀ keys : List α, keys.Nodup → a ∈ keys →
      (keys.map (fun k => if a = k then 1 else 0)).sum = 1 := by
  intro keys
  induction keys with
  | nil => intro _ ha; cases ha
  | cons k ks ih =>
    intro hnd ha
    obtain ⟨hk, hnd2⟩ := List.nodup_cons.mp hnd
    by_cases hak : a = k
    · subst hak
      rw [List.map_cons, List.sum_cons, sum_map_ite_of_not_mem a ks hk, if_pos rfl]
    · rcases List.mem_cons.mp ha with h | h
      · exact absurd h hak
      · simp only [List.map_cons, List.sum_cons, if_neg hak, ih hnd2 h]

theorem sum_countP_keys {α β : Type} [DecidableEq α] (f : β → α) :
    ∀ (xs : List β) (keys : List α), keys.Nodup → (∀ x ∈ xs, f x ∈ keys) →
      (keys.map (fun k => xs.countP (fun x => decide (f x = k)))).sum = xs.length := by
  intro xs
  induction xs with
  | nil =>
    intro keys _ _
    simp [List.countP_nil]
  | cons x xs ih =>
    intro keys hnd hcov
    have hx : f x ∈ keys := hcov x (List.mem_cons_self x xs)
    have hcov2 : ∀ y ∈ xs, f y ∈ keys := fun y hy => hcov y (List.mem_cons_of_mem x hy)
    have hstep : ∀ k ∈ keys, (x :: xs).countP (fun y => decide (f y = k)) =
        xs.countP (fun y => decide (f y = k)) + (if f x = k then 1 else 0) := by
      intro k _
      rw [List.countP_cons]
      by_cases h : f x = k
      · rw [if_pos (decide_eq_true h), if_pos h]
      · rw [if_neg (fun hd => h (of_decide_eq_true hd)), if_neg h]
    rw [List.map_congr_left hstep, sum_map_add_distrib, ih keys hnd hcov2,
      sum_map_ite_of_mem (f x) keys hnd hx, List.length_cons]

theorem cellCount_row_sum (orders : List WorkOrder) (b : String) :
    ((groupedCols orders).map (fun c => cellCount orders b c)).sum =
      orders.countP (fun o => decide (facIdMapped o.fac_id = b)) := by
  have hcell : ∀ c ∈ groupedCols orders, cellCount orders b c =
      (orders.filter (fun o => decide (facIdMapped o.fac_id = b))).countP
        (fun o => decide (o.craft = c)) := by
    intro c _
    unfold cellCount
    rw [List.countP_filter]
    congr 1
    funext o
    rw [Bool.and_comm]
  rw [List.map_congr_left hcell,
    sum_countP_keys (fun o : WorkOrder => o.craft) _ _ (nodup_groupedCols orders)
      (fun o ho => (mem_groupedCols orders o.craft).mpr
        ⟨o, List.mem_of_mem_filter ho, rfl⟩),
    List.countP_eq_length_filter]

theorem tableTotal_groupedTable (orders : List WorkOrder) :
    tableTotal (groupedTable orders) = orders.length := by
  unfold tableTotal groupedTable
  rw [List.map_map]
  have h1 : ∀ b ∈ groupedKeys orders,
      ((fun r : String × List (String × Nat) => (r.2.map Prod.snd).sum) ∘
        (fun b => (b, (groupedCols orders).map (fun c => (c, cellCount orders b c))))) b =
      orders.countP (fun o => decide (facIdMapped o.fac_id = b)) := by
    intro b _
    show (((groupedCols orders).map (fun c => (c, cellCount orders b c))).map Prod.snd).sum = _
    rw [List.map_map]
    exact cellCount_row_sum orders b
  rw [List.map_congr_left h1]
  exact sum_countP_keys (fun o : WorkOrder => facIdMapped o.fac_id) orders (groupedKeys orders)
    (nodup_groupedKeys orders)
    (fun o ho => (mem_groupedKeys orders (facIdMapped o.fac_id)).mpr ⟨o, ho, rfl⟩)

/-! Contract facts about `getCloseMatches`. -/

theorem gcm_length_le (word : String) (possibilities : List String) (n : Nat) (cutoff : ℚ) :
    (getCloseMatches word possibilities n cutoff).length ≤ n := by
  unfold getCloseMatches
  rw [List.length_map, List.length_take]
  exact min_le_left _ _

theorem gcm_scored_mem (word : String) (possibilities : List String) (cutoff : ℚ)
    {p : ℚ × String}
    (hp : p ∈ possibilities.filterMap (fun x =>
      if cutoff ≤ ratioQ x.data word.data then some (ratioQ x.data word.data, x) else none)) :
    p.1 = ratioQ p.2.data word.data ∧ cutoff ≤ p.1 := by
  rw [List.mem_filterMap] at hp
  obtain ⟨a, _, hfa⟩ := hp
  by_cases h : cutoff ≤ ratioQ a.data word.data
  · rw [if_pos h] at hfa
    cases hfa
    exact ⟨rfl, h⟩
  · rw [if_neg h] at hfa
    exact Option.noConfusion hfa

theorem gcm_mem_ratio (word : String) (possibilities : List String) (n : Nat) (cutoff : ℚ) :
    ∀ x ∈ getCloseMatches word possibilities n cutoff, cutoff ≤ ratioQ x.data word.data := by
  intro x hx
  unfold getCloseMatches at hx
  rw [List.mem_map] at hx
  obtain ⟨p, hp, rfl⟩ := hx
  have hp2 := (sortBy_perm pairGeB _).mem_iff.mp ((List.take_sublist n _).subset hp)
  have hinv := gcm_scored_mem word possibilities cutoff hp2
  exact hinv.1 ▸ hinv.2

theorem gcm_sorted (word : String) (possibilities : List String) (n : Nat) (cutoff : ℚ) :
    (getCloseMatches word possibilities n cutoff).Pairwise (fun x y =>
      ratioQ y.data word.data < ratioQ x.data word.data ∨
      (ratioQ x.data word.data = ratioQ y.data word.data ∧ y.data ≤ x.data)) := by
  unfold getCloseMatches
  rw [List.pairwise_map]
  have hs := sortBy_pairwise pairGeB pairGeB_total pairGeB_trans
    (possibilities.filterMap (fun x =>
      if cutoff ≤ ratioQ x.data word.data then some (ratioQ x.data word.data, x) else none))
  have ht := List.Pairwise.sublist (List.take_sublist n _) hs
  refine List.Pairwise.imp_of_mem ?_ ht
  intro p q hpm hqm hpq
  have hpinv := gcm_scored_mem word possibilities cutoff
    ((sortBy_perm pairGeB _).mem_iff.mp ((List.take_sublist n _).subset hpm))
  have hqinv := gcm_scored_mem word possibilities cutoff
    ((sortBy_perm pairGeB _).mem_iff.mp ((List.take_sublist n _).subset hqm))
  simp only [pairGeB, Bool.or_eq_true, Bool.and_eq_true, decide_eq_true_eq] at hpq
  rw [← hpinv.1, ← hqinv.1]
  exact hpq

/-! Arithmetic of the proportion rows. -/

theorem sum_map_div_mul (l : List Nat) (T : ℚ) :
    (l.map (fun k : Nat => (k : ℚ) / T * 100)).sum = (l.sum : ℚ) / T * 100 := by
  induction l with
  | nil => simp
  | cons k ks ih =>
    simp only [List.map_cons, List.sum_cons, ih, Nat.cast_add]
    ring

theorem map_fst_filter_pair (l : List String) (f : String → Nat) :
    (((l.map (fun c => (c, f c))).filter (fun q => decide (0 < q.2))).map Prod.fst) =
      l.filter (fun c => decide (0 < f c)) := by
  induction l with
  | nil => rfl
  | cons c cs ih =>
    by_cases h : 0 < f c
    · simp [List.filter_cons, h, ih]
    · simp [List.filter_cons, h, ih]

theorem legendCrafts_eq (orders : List WorkOrder) (b : String) :
    legendCrafts orders b =
      (groupedCols orders).filter (fun c => decide (0 < cellCount orders b c)) := by
  unfold legendCrafts positiveCounts buildingRow
  exact map_fst_filter_pair (groupedCols orders) (fun c => cellCount orders b c)

/-- C1 (counterexample): the claim says an identifier with no override and no
exact registry match is fuzzy-resolved at threshold 0.7 and aggregated under
the first fuzzy candidate.  The code never applies fuzzy results: for raw
`"cocx"` against registry `["COC"]` the fuzzy resolver at 0.7 returns
`["COC"]`, yet the aggregation key is the normalized form `"COCX"`, and
`"COC"` is not an aggregation key at all. -/
theorem C1_counterexample :
    overrideLookup (normalizeId "cocx") = none ∧
    normalizeId "cocx" ∉ loadBuildings ["COC"] ∧
    getCloseMatches (normalizeId "cocx") (loadBuildings ["COC"]) 1 (mkRat 7 10) = ["COC"] ∧
    groupedKeys [⟨"cocx", "HVAC", 2020, 5⟩] = ["COCX"] ∧
    "COC" ∉ groupedKeys [⟨"cocx", "HVAC", 2020, 5⟩] := by
  refine ⟨by decide, by decide, by decide, by decide, by decide⟩

/-- C1 (amended): an identifier whose normalized form has no override entry
and does not equal a registry name is never fuzzy-resolved — its aggregation
key is its normalized form, it is flagged unmatched, and all its work orders
are counted under that normalized key. -/
theorem C1_theorem (orders : List WorkOrder) (registryNames : List String) (raw : String)
    (hmem : raw ∈ orders.map (fun o => o.fac_id))
    (hov : overrideLookup (normalizeId raw) = none)
    (hex : normalizeId raw ∉ registryNames) :
    facIdMapped raw = normalizeId raw ∧
    normalizeId raw ∈ groupedKeys orders ∧
    normalizeId raw ∈ unmatchedIds orders registryNames ∧
    ∀ o ∈ orders, o.fac_id = raw → 0 < cellCount orders (normalizeId raw) o.craft := by
  have hf : facIdMapped raw = normalizeId raw := by unfold facIdMapped; rw [hov]
  rw [List.mem_map] at hmem
  obtain ⟨o0, ho0, ho0e⟩ := hmem
  have hkey : normalizeId raw ∈ groupedKeys orders :=
    (mem_groupedKeys orders _).mpr ⟨o0, ho0, by rw [ho0e, hf]⟩
  refine ⟨hf, hkey, ?_, ?_⟩
  · exact (mem_unmatchedIds orders registryNames _).mpr ⟨⟨o0, ho0, by rw [ho0e, hf]⟩, hex⟩
  · intro o ho hoe
    unfold cellCount
    rw [List.countP_pos_iff]
    refine ⟨o, ho, ?_⟩
    rw [hoe, hf]
    simp

/-- C1 (witness): the amended statement applied to the concrete unresolved
identifier `"cocx"` against registry `["COC"]`. -/
theorem C1_witness :
    ("cocx" ∈ ([⟨"cocx", "HVAC", 2020, 5⟩] : List WorkOrder).map (fun o => o.fac_id) ∧
      overrideLookup (normalizeId "cocx") = none ∧
      normalizeId "cocx" ∉ ["COC"]) ∧
    (facIdMapped "cocx" = normalizeId "cocx" ∧
      normalizeId "cocx" ∈ groupedKeys [⟨"cocx", "HVAC", 2020, 5⟩] ∧
      normalizeId "cocx" ∈ unmatchedIds [⟨"cocx", "HVAC", 2020, 5⟩] ["COC"] ∧
      ∀ o ∈ ([⟨"cocx", "HVAC", 2020, 5⟩] : List WorkOrder), o.fac_id = "cocx" →
        0 < cellCount [⟨"cocx", "HVAC", 2020, 5⟩] (normalizeId "cocx") o.craft) :=
  ⟨⟨by decide, by decide, by decide⟩,
    C1_theorem [⟨"cocx", "HVAC", 2020, 5⟩] ["COC"] "cocx" (by decide) (by decide) (by decide)⟩

/-- C2: an override entry on the normalized form always wins — the mapped
identifier is the override's canonical name (independently of any registry
content), and that canonical name is the aggregation key of the raw
identifier's orders. -/
theorem C2_theorem (raw c : String) (orders : List WorkOrder)
    (hov : overrideLookup (normalizeId raw) = some c)
    (hmem : raw ∈ orders.map (fun o => o.fac_id)) :
    facIdMapped raw = c ∧ c ∈ groupedKeys orders := by
  have hf : facIdMapped raw = c := by unfold facIdMapped; rw [hov]
  refine ⟨hf, ?_⟩
  rw [List.mem_map] at hmem
  obtain ⟨o, ho, hoe⟩ := hmem
  exact (mem_groupedKeys orders c).mpr ⟨o, ho, by rw [hoe, hf]⟩

/-- C2 (witness): with override `"COC" → "COLLEGE OF COMPUTING"` and a
registry containing `"COC"` verbatim, raw `"coc"` resolves to
`"COLLEGE OF COMPUTING"`, not `"COC"`. -/
theorem C2_witness :
    overrideLookup (normalizeId "coc") = some "COLLEGE OF COMPUTING" ∧
    "coc" ∈ ([⟨"coc", "HVAC", 2020, 1⟩] : List WorkOrder).map (fun o => o.fac_id) ∧
    "COC" ∈ loadBuildings ["COC"] ∧
    (facIdMapped "coc" = "COLLEGE OF COMPUTING" ∧
      "COLLEGE OF COMPUTING" ∈ groupedKeys [⟨"coc", "HVAC", 2020, 1⟩]) ∧
    facIdMapped "coc" ≠ "COC" :=
  ⟨by decide, by decide, by decide,
    C2_theorem "coc" "COLLEGE OF COMPUTING" [⟨"coc", "HVAC", 2020, 1⟩] (by decide) (by decide),
    by decide⟩

/-- C3 (counterexample): the claim says two registry entries normalizing to
the same canonical name raise `AmbiguousRegistry` before reconciliation.
`load_buildings` performs no such check: a duplicated registry is returned
with both duplicates, and reconciliation and aggregation proceed normally
over it. -/
theorem C3_counterexample :
    loadBuildings ["College of Computing  ", "COLLEGE OF COMPUTING"] =
      ["COLLEGE OF COMPUTING", "COLLEGE OF COMPUTING"] ∧
    ¬ (loadBuildings ["College of Computing  ", "COLLEGE OF COMPUTING"]).Nodup ∧
    suggestionsReport [⟨"zzz", "HVAC", 2020, 1⟩]
      (loadBuildings ["College of Computing  ", "COLLEGE OF COMPUTING"]) = [("ZZZ", [])] ∧
    groupedTable [⟨"zzz", "HVAC", 2020, 1⟩] = [("ZZZ", [("HVAC", 1)])] := by
  refine ⟨by decide, by decide, by decide, by decide⟩

/-- C3 (amended): no ambiguity detection exists — `load_buildings` returns
one normalized name per registry entry (length preserved), and a canonical
name occurs in the output exactly as often as registry entries normalize to
it; duplicates are silently retained, and no error is ever signalled. -/
theorem C3_theorem (registry : List String) (c : String) :
    (loadBuildings registry).length = registry.length ∧
    (loadBuildings registry).count c = registry.countP (fun r => normalizeId r == c) := by
  constructor
  · unfold loadBuildings
    exact List.length_map _ _
  · unfold loadBuildings
    induction registry with
    | nil => rfl
    | cons r rs ih =>
      rw [List.map_cons, List.count_cons, List.countP_cons, ih]

/-- C4: an identifier that fails override, exact and fuzzy resolution is kept
mapped to its normalized form (its orders are still aggregated under that
key), is flagged unmatched, and is reported with the suggestion list
`get_close_matches(·, names, 3, 0.6)`, which holds at most 3 names, each of
similarity at least 0.6. -/
theorem C4_theorem (orders : List WorkOrder) (registryNames : List String) (raw : String)
    (hmem : raw ∈ orders.map (fun o => o.fac_id))
    (hov : overrideLookup (normalizeId raw) = none)
    (hex : normalizeId raw ∉ registryNames)
    (_hfz : getCloseMatches (normalizeId raw) registryNames 1 (mkRat 7 10) = []) :
    facIdMapped raw = normalizeId raw ∧
    normalizeId raw ∈ groupedKeys orders ∧
    normalizeId raw ∈ unmatchedIds orders registryNames ∧
    (normalizeId raw, getCloseMatches (normalizeId raw) registryNames 3 (mkRat 3 5)) ∈
      suggestionsReport orders registryNames ∧
    (getCloseMatches (normalizeId raw) registryNames 3 (mkRat 3 5)).length ≤ 3 ∧
    ∀ c ∈ getCloseMatches (normalizeId raw) registryNames 3 (mkRat 3 5),
      mkRat 3 5 ≤ ratioQ c.data (normalizeId raw).data := by
  have hf : facIdMapped raw = normalizeId raw := by unfold facIdMapped; rw [hov]
  rw [List.mem_map] at hmem
  obtain ⟨o0, ho0, ho0e⟩ := hmem
  have hun : normalizeId raw ∈ unmatchedIds orders registryNames :=
    (mem_unmatchedIds orders registryNames _).mpr ⟨⟨o0, ho0, by rw [ho0e, hf]⟩, hex⟩
  refine ⟨hf, (mem_groupedKeys orders _).mpr ⟨o0, ho0, by rw [ho0e, hf]⟩, hun, ?_, ?_, ?_⟩
  · unfold suggestionsReport
    exact List.mem_map.mpr ⟨normalizeId raw, hun, rfl⟩
  · exact gcm_length_le _ _ _ _
  · exact gcm_mem_ratio _ _ _ _

/-- C4 (witness): the statement applied to `"zzzzzz"` against registry
`["COLLEGE OF COMPUTING"]` — no override, no exact match, empty fuzzy result
at 0.7, empty suggestion list. -/
theorem C4_witness :
    ("zzzzzz" ∈ ([⟨"zzzzzz", "HVAC", 2020, 1⟩] : List WorkOrder).map (fun o => o.fac_id) ∧
      overrideLookup (normalizeId "zzzzzz") = none ∧
      normalizeId "zzzzzz" ∉ ["COLLEGE OF COMPUTING"] ∧
      getCloseMatches (normalizeId "zzzzzz") ["COLLEGE OF COMPUTING"] 1 (mkRat 7 10) = []) ∧
    (facIdMapped "zzzzzz" = normalizeId "zzzzzz" ∧
      normalizeId "zzzzzz" ∈ groupedKeys [⟨"zzzzzz", "HVAC", 2020, 1⟩] ∧
      normalizeId "zzzzzz" ∈ unmatchedIds [⟨"zzzzzz", "HVAC", 2020, 1⟩] ["COLLEGE OF COMPUTING"] ∧
      (normalizeId "zzzzzz",
        getCloseMatches (normalizeId "zzzzzz") ["COLLEGE OF COMPUTING"] 3 (mkRat 3 5)) ∈
        suggestionsReport [⟨"zzzzzz", "HVAC", 2020, 1⟩] ["COLLEGE OF COMPUTING"] ∧
      (getCloseMatches (normalizeId "zzzzzz") ["COLLEGE OF COMPUTING"] 3 (mkRat 3 5)).length ≤ 3 ∧
      ∀ c ∈ getCloseMatches (normalizeId "zzzzzz") ["COLLEGE OF COMPUTING"] 3 (mkRat 3 5),
        mkRat 3 5 ≤ ratioQ c.data (normalizeId "zzzzzz").data) :=
  ⟨⟨by decide, by decide, by decide, by decide⟩,
    C4_theorem [⟨"zzzzzz", "HVAC", 2020, 1⟩] ["COLLEGE OF COMPUTING"] "zzzzzz"
      (by decide) (by decide) (by decide) (by decide)⟩

/-- C5: for every building present in the aggregation table (its craft-count
mapping is then non-empty), zero-count crafts are dropped, every computed
proportion is strictly positive and at most 100, and the proportions sum to
exactly 100 (hence within any tolerance, in particular 1e-6). -/
theorem C5_theorem (orders : List WorkOrder) (b : String) (hb : b ∈ groupedKeys orders) :
    (∀ p ∈ proportions (buildingRow orders b), 0 < p.2 ∧ p.2 ≤ 100) ∧
    ((proportions (buildingRow orders b)).map Prod.snd).sum = 100 := by
  obtain ⟨o, ho, hob⟩ := (mem_groupedKeys orders b).mp hb
  have hc : o.craft ∈ groupedCols orders := (mem_groupedCols orders o.craft).mpr ⟨o, ho, rfl⟩
  have hpos : 0 < cellCount orders b o.craft := by
    unfold cellCount
    rw [List.countP_pos_iff]
    refine ⟨o, ho, ?_⟩
    rw [hob]
    simp
  have hmem : (o.craft, cellCount orders b o.craft) ∈ positiveCounts (buildingRow orders b) := by
    unfold positiveCounts buildingRow
    rw [List.mem_filter]
    exact ⟨List.mem_map.mpr ⟨o.craft, hc, rfl⟩, decide_eq_true hpos⟩
  have hTpos : 0 < rowTotal (positiveCounts (buildingRow orders b)) := by
    have h1 : cellCount orders b o.craft ∈
        (positiveCounts (buildingRow orders b)).map Prod.snd :=
      List.mem_map.mpr ⟨_, hmem, rfl⟩
    have h2 := List.single_le_sum (fun x _ => Nat.zero_le x) _ h1
    unfold rowTotal
    omega
  have hTne : ((rowTotal (positiveCounts (buildingRow orders b)) : ℚ)) ≠ 0 :=
    Nat.cast_ne_zero.mpr (Nat.pos_iff_ne_zero.mp hTpos)
  constructor
  · intro p hp
    unfold proportions at hp
    rw [List.mem_map] at hp
    obtain ⟨q, hq, rfl⟩ := hp
    have hqpos : 0 < q.2 := by
      unfold positiveCounts at hq
      exact of_decide_eq_true (List.mem_filter.mp hq).2
    have hqle : q.2 ≤ rowTotal (positiveCounts (buildingRow orders b)) := by
      apply List.single_le_sum (fun x _ => Nat.zero_le x)
      exact List.mem_map.mpr ⟨q, hq, rfl⟩
    have hdiv : (0:ℚ) < (q.2 : ℚ) / (rowTotal (positiveCounts (buildingRow orders b)) : ℚ) :=
      div_pos (by exact_mod_cast hqpos) (by exact_mod_cast hTpos)
    constructor
    · exact mul_pos hdiv (by norm_num)
    · have hle1 : (q.2 : ℚ) / (rowTotal (positiveCounts (buildingRow orders b)) : ℚ) ≤ 1 :=
        (div_le_one (by exact_mod_cast hTpos)).mpr (by exact_mod_cast hqle)
      have h2 := mul_le_mul_of_nonneg_right hle1 (by norm_num : (0:ℚ) ≤ 100)
      rw [one_mul] at h2
      exact h2
  · unfold proportions
    rw [List.map_map]
    have hcomp : (Prod.snd ∘ fun p : String × Nat =>
        (p.1, (p.2 : ℚ) / (rowTotal (positiveCounts (buildingRow orders b)) : ℚ) * 100)) =
        (fun p : String × Nat =>
          (p.2 : ℚ) / (rowTotal (positiveCounts (buildingRow orders b)) : ℚ) * 100) := rfl
    rw [hcomp]
    have h3 : (positiveCounts (buildingRow orders b)).map
        (fun p : String × Nat =>
          (p.2 : ℚ) / (rowTotal (positiveCounts (buildingRow orders b)) : ℚ) * 100) =
        ((positiveCounts (buildingRow orders b)).map Prod.snd).map
          (fun k : Nat =>
            (k : ℚ) / (rowTotal (positiveCounts (buildingRow orders b)) : ℚ) * 100) := by
      rw [List.map_map]
      rfl
    rw [h3, sum_map_div_mul]
    have hrt : rowTotal (positiveCounts (buildingRow orders b)) =
        ((positiveCounts (buildingRow orders b)).map Prod.snd).sum := rfl
    rw [← hrt, div_self hTne, one_mul]

/-- C5 (witness): the statement applied to a building with counts
HVAC 2 and ELECTRIC 1. -/
theorem C5_witness :
    "B" ∈ groupedKeys
      [⟨"b", "HVAC", 2020, 1⟩, ⟨"b", "HVAC", 2020, 2⟩, ⟨"b", "ELECTRIC", 2020, 3⟩] ∧
    ((∀ p ∈ proportions (buildingRow
        [⟨"b", "HVAC", 2020, 1⟩, ⟨"b", "HVAC", 2020, 2⟩, ⟨"b", "ELECTRIC", 2020, 3⟩] "B"),
        0 < p.2 ∧ p.2 ≤ 100) ∧
      ((proportions (buildingRow
        [⟨"b", "HVAC", 2020, 1⟩, ⟨"b", "HVAC", 2020, 2⟩, ⟨"b", "ELECTRIC", 2020, 3⟩] "B")).map
          Prod.snd).sum = 100) :=
  ⟨by decide,
    C5_theorem [⟨"b", "HVAC", 2020, 1⟩, ⟨"b", "HVAC", 2020, 2⟩, ⟨"b", "ELECTRIC", 2020, 3⟩]
      "B" (by decide)⟩

/-- C6 (counterexample): the claim says the legend lists crafts in order of
first appearance in the building's count table.  For a building whose orders
arrive as PLUMBING then ELECTRIC, the legend lists ELECTRIC before PLUMBING
(the table's columns are sorted), not the first-appearance order. -/
theorem C6_counterexample :
    legendCrafts [⟨"b", "PLUMBING", 2020, 1⟩, ⟨"b", "ELECTRIC", 2020, 1⟩] "B" =
      ["ELECTRIC", "PLUMBING"] ∧
    specFirstAppearanceOrder [⟨"b", "PLUMBING", 2020, 1⟩, ⟨"b", "ELECTRIC", 2020, 1⟩] "B" =
      ["PLUMBING", "ELECTRIC"] ∧
    legendCrafts [⟨"b", "PLUMBING", 2020, 1⟩, ⟨"b", "ELECTRIC", 2020, 1⟩] "B" ≠
      specFirstAppearanceOrder [⟨"b", "PLUMBING", 2020, 1⟩, ⟨"b", "ELECTRIC", 2020, 1⟩] "B" := by
  refine ⟨by decide, by decide, by decide⟩

/-- C6 (amended): for every building the legend lists exactly the crafts
with a positive count for that building, in ascending lexicographic order of
the craft label — not in first-appearance order. -/
theorem C6_theorem (orders : List WorkOrder) (b : String) :
    (legendCrafts orders b).Pairwise (fun s t => s ≤ t) ∧
    (∀ c, c ∈ legendCrafts orders b ↔ 0 < cellCount orders b c) := by
  constructor
  · rw [legendCrafts_eq]
    have hcols : (groupedCols orders).Pairwise fun s t => strLeB s t = true := by
      unfold groupedCols
      exact sortBy_pairwise strLeB strLeB_total strLeB_trans _
    have hfilt := List.Pairwise.filter (fun c => decide (0 < cellCount orders b c)) hcols
    exact hfilt.imp (fun hst => String.le_iff_toList_le.mpr (of_decide_eq_true hst))
  · intro c
    rw [legendCrafts_eq, List.mem_filter]
    constructor
    · rintro ⟨_, h2⟩
      exact of_decide_eq_true h2
    · intro hpos
      have hex : ∃ o ∈ orders, o.craft = c := by
        unfold cellCount at hpos
        rw [List.countP_pos_iff] at hpos
        obtain ⟨o, ho, hp⟩ := hpos
        rw [Bool.and_eq_true] at hp
        exact ⟨o, ho, of_decide_eq_true hp.2⟩
      exact ⟨(mem_groupedCols orders c).mpr hex, decide_eq_true hpos⟩

/-- C7: aggregation is order-independent — permuting the work-order sequence
leaves the whole aggregated table (sorted row labels, sorted column labels,
and every cell count) unchanged. -/
theorem C7_theorem (o o' : List WorkOrder) (h : o.Perm o') :
    groupedTable o = groupedTable o' := by
  have hkeys : groupedKeys o = groupedKeys o' := by
    unfold groupedKeys
    exact sortBy_eq_of_perm strLeB strLeB_total strLeB_trans strLeB_antisymm
      (uniqueFirst_perm_of_perm (h.map _))
  have hcols : groupedCols o = groupedCols o' := by
    unfold groupedCols
    exact sortBy_eq_of_perm strLeB strLeB_total strLeB_trans strLeB_antisymm
      (uniqueFirst_perm_of_perm (h.map _))
  have hcell : ∀ b c, cellCount o b c = cellCount o' b c :=
    fun b c => List.Perm.countP_eq _ h
  unfold groupedTable
  rw [hkeys, hcols]
  refine List.map_congr_left ?_
  intro b _
  have hrow : ∀ c ∈ groupedCols o', (c, cellCount o b c) = (c, cellCount o' b c) :=
    fun c _ => by rw [hcell]
  rw [List.map_congr_left hrow]

/-- C7 (witness): the statement applied to a concrete two-order swap. -/
theorem C7_witness :
    (([⟨"a", "HVAC", 2020, 1⟩, ⟨"b", "PAINT", 2021, 2⟩] : List WorkOrder).Perm
      [⟨"b", "PAINT", 2021, 2⟩, ⟨"a", "HVAC", 2020, 1⟩]) ∧
    groupedTable [⟨"a", "HVAC", 2020, 1⟩, ⟨"b", "PAINT", 2021, 2⟩] =
      groupedTable [⟨"b", "PAINT", 2021, 2⟩, ⟨"a", "HVAC", 2020, 1⟩] :=
  ⟨List.Perm.swap (⟨"b", "PAINT", 2021, 2⟩ : WorkOrder) ⟨"a", "HVAC", 2020, 1⟩ [],
    C7_theorem _ _ (List.Perm.swap (⟨"b", "PAINT", 2021, 2⟩ : WorkOrder) ⟨"a", "HVAC", 2020, 1⟩ [])⟩

/-- C8 (counterexample): the claim says equal-similarity candidates are tied
by ascending lexicographic order.  For word `"ABCD"` the candidates `"ABCX"`
and `"ABCY"` have the same ratio 0.75 and `"ABCX"` is lexicographically
smaller, yet `get_close_matches` returns `["ABCY", "ABCX"]` — ties are
broken by descending candidate order. -/
theorem C8_counterexample :
    getCloseMatches "ABCD" ["ABCX", "ABCY"] 3 (mkRat 3 5) = ["ABCY", "ABCX"] ∧
    ratioQ "ABCX".data "ABCD".data = ratioQ "ABCY".data "ABCD".data ∧
    "ABCX".data < "ABCY".data := by
  refine ⟨by decide, by decide, by decide⟩

/-- C8 (amended): for every word, candidate list, `max_results` in the
accepted domain `0 < n` and cutoff in `[0, 1]`, the resolver returns at most
`n` candidates, each of similarity at least the cutoff, ordered by
descending similarity with equal-similarity ties broken by descending
(reverse lexicographic) candidate order. -/
theorem C8_theorem (word : String) (possibilities : List String) (n : Nat) (cutoff : ℚ)
    (_hn : 0 < n) (_hc0 : 0 ≤ cutoff) (_hc1 : cutoff ≤ 1) :
    (getCloseMatches word possibilities n cutoff).length ≤ n ∧
    (∀ x ∈ getCloseMatches word possibilities n cutoff, cutoff ≤ ratioQ x.data word.data) ∧
    (getCloseMatches word possibilities n cutoff).Pairwise (fun x y =>
      ratioQ y.data word.data < ratioQ x.data word.data ∨
      (ratioQ x.data word.data = ratioQ y.data word.data ∧ y.data ≤ x.data)) :=
  ⟨gcm_length_le word possibilities n cutoff, gcm_mem_ratio word possibilities n cutoff,
    gcm_sorted word possibilities n cutoff⟩

/-- C8 (witness): the amended statement applied to the tied candidates. -/
theorem C8_witness :
    (0 < 3 ∧ (0:ℚ) ≤ mkRat 3 5 ∧ mkRat 3 5 ≤ 1) ∧
    ((getCloseMatches "ABCD" ["ABCX", "ABCY"] 3 (mkRat 3 5)).length ≤ 3 ∧
      (∀ x ∈ getCloseMatches "ABCD" ["ABCX", "ABCY"] 3 (mkRat 3 5),
        mkRat 3 5 ≤ ratioQ x.data "ABCD".data) ∧
      (getCloseMatches "ABCD" ["ABCX", "ABCY"] 3 (mkRat 3 5)).Pairwise (fun x y =>
        ratioQ y.data "ABCD".data < ratioQ x.data "ABCD".data ∨
        (ratioQ x.data "ABCD".data = ratioQ y.data "ABCD".data ∧ y.data ≤ x.data))) :=
  ⟨⟨by decide, by decide, by decide⟩,
    C8_theorem "ABCD" ["ABCX", "ABCY"] 3 (mkRat 3 5) (by decide) (by decide) (by decide)⟩

/-- C9: normalization is idempotent; strings with the same uppercased
character sequence normalize identically (case insensitivity); and
`"  Coc "` and `"COC"` both normalize to `"COC"` (whitespace
insensitivity). -/
theorem C9_theorem :
    (∀ s : String, normalizeId (normalizeId s) = normalizeId s) ∧
    (∀ s t : String, s.data.map upChar = t.data.map upChar → normalizeId s = normalizeId t) ∧
    normalizeId "  Coc " = "COC" ∧ normalizeId "COC" = "COC" := by
  refine ⟨normalizeId_idem, ?_, by decide, by decide⟩
  intro s t h
  unfold normalizeId
  rw [h]

/-- C10: every filtered work order contributes exactly one count to exactly
one cell of the aggregated table — the sum of all cells equals the number of
filtered orders, for every choice of year/month/season filter. -/
theorem C10_theorem (years : Nat × Nat) (months : Option (Nat × Nat))
    (season : Option (List Nat)) (df : List WorkOrder) :
    tableTotal (groupedTable (filterOrders years months season df)) =
      (filterOrders years months season df).length :=
  tableTotal_groupedTable _
